import Mathlib

/-!
Verification of the repository-export tool (`_export_repo.py`).

The script walks a directory tree rooted at the current directory, prunes a
fixed set of excluded directory names, renders an ASCII tree of the remaining
entries, and concatenates every collected file's text into a single output
document `_repo_export.txt`.

The filesystem is modelled as a finite tree of named entries.  Byte contents
are sequences of bytes (`Fin 256`); a file that fails on read (deleted
mid-run, permission denied, ...) is modelled by the `readError` constructor
carrying the error message that Python's exception would stringify to.
Strings are compared at the code-point level (`String.data`), matching
Python's string ordering.
-/

/-- Content of a regular file: either its raw bytes, or a read failure
(modelling an `OSError` raised when the dump loop opens the file). -/
inductive FileData where
  | bytes (bs : List (Fin 256))
  | readError (msg : String)
deriving DecidableEq, Repr

/-- A filesystem node: a regular file or a directory with an ordered list of
named entries (the order models directory listing order as seen by
`os.walk`/`os.scandir`). -/
inductive Node where
  | file (fd : FileData)
  | dir (entries : List (String × Node))

/-- `exclude_dirs = {'node_modules', '.next', 'dist', '.git'}` (line 6). -/
def excludeDirs : List String := ["node_modules", ".next", "dist", ".git"]

/-- Name of the output artifact, `_repo_export.txt` (line 7). -/
def outputName : String := "_repo_export.txt"

/-- `True` iff the list of names has no duplicate (a real directory cannot
contain two entries with the same name). -/
def nodupNames : List String → Bool
  | [] => true
  | x :: xs => !(xs.contains x) && nodupNames xs

/-- Path lookup: follow the segments of `p` from node `n` downwards,
taking at each directory the first entry carrying the segment's name. -/
def lookupNode : List String → Node → Option Node
  | [], n => some n
  | _ :: _, .file _ => none
  | s :: rest, .dir es =>
      match es.find? (fun e => e.1 == s) with
      | some e => lookupNode rest e.2
      | none => none

/-- The file data stored at path `p` under `n`, when `p` names a regular
file. -/
def lookupFile (n : Node) (p : List String) : Option FileData :=
  match lookupNode p n with
  | some (.file fd) => some fd
  | _ => none

/-- Model of `Path.is_dir()` relative to the root node `n`. -/
def isDir (n : Node) (p : List String) : Bool :=
  match lookupNode p n with
  | some (.dir _) => true
  | _ => false

mutual
/-- Well-formedness of a filesystem tree: every directory's entry names are
pairwise distinct. -/
def Node.wf : Node → Bool
  | .file _ => true
  | .dir es => nodupNames (es.map Prod.fst) && entriesWf es

/-- Well-formedness of a directory's entry list (see `Node.wf`). -/
def entriesWf : List (String × Node) → Bool
  | [] => true
  | e :: rest => e.2.wf && entriesWf rest
end

mutual
/-- The collector (lines 9-16 of the source).  `os.walk(root)` visits
directories top-down; at each directory the excluded subdirectory names are
pruned in place (`dirnames[:] = [d for d in dirnames if d not in
exclude_dirs]`, line 11) before descent, and every regular file whose
absolute path has a part in `exclude_dirs` is skipped (lines 14-15).
`rootParts` are the name segments of the absolute path of the root itself
(`p.parts` of the Python `Path` contains them), `cur` the segments of the
directory currently visited, relative to the root.  The returned paths are
relative to the root, in discovery order: the files of a directory first, in
listing order, then the files of each surviving subdirectory. -/
def Node.walk (rootParts cur : List String) : Node → List (List String)
  | .file _ => []
  | .dir es =>
      (es.filterMap fun e =>
        match e.2 with
        | .file _ =>
            if (rootParts ++ cur ++ [e.1]).any (fun s => s ∈ excludeDirs) then none
            else some (cur ++ [e.1])
        | .dir _ => none)
      ++ walkSubdirs rootParts cur es

/-- Recursive descent of `os.walk` into the non-pruned subdirectories of the
current directory, in listing order (see `Node.walk`). -/
def walkSubdirs (rootParts cur : List String) : List (String × Node) → List (List String)
  | [] => []
  | (n, t) :: rest =>
      (match t with
       | .dir _ => if n ∈ excludeDirs then [] else Node.walk rootParts (cur ++ [n]) t
       | .file _ => []) ++ walkSubdirs rootParts cur rest
end

/-- For one collected file with relative segments `parts`, the pairs
`(parts[:i], parts[i])` for `i = 0 .. len(parts)-1`, in order — the
child-registration events of the `children` build loop (lines 19-26). -/
def segPairs : List String → List (List String × String)
  | [] => []
  | s :: rest => ([], s) :: (segPairs rest).map (fun pc => (s :: pc.1, pc.2))

/-- Order-preserving de-duplication, keeping the first occurrence: models
`if child not in children[parent]: children[parent].append(child)`
(lines 25-26).  `seen` holds the names already appended. -/
def dedupFirst (seen : List String) : List String → List String
  | [] => []
  | x :: xs =>
      if seen.contains x then dedupFirst seen xs
      else x :: dedupFirst (x :: seen) xs

/-- `children[parent]` of the `ChildIndex` (lines 18-26): the immediate
child names registered under `parent`, in first-registration order, without
duplicates. -/
def childrenOf (files : List (List String)) (parent : List String) : List String :=
  dedupFirst [] ((((files.flatMap segPairs).filter (fun pc => pc.1 == parent)).map Prod.snd))

/-- The sort key of `sort_children` (line 30):
`(not (root / Path(*parent) / x).is_dir(), x.lower())`.  The string
component is compared at the code-point level, as Python compares `str`. -/
def childKey (t : Node) (parent : List String) (x : String) : Bool × List Char :=
  (!(isDir t (parent ++ [x])), x.data.map Char.toLower)

/-- Lexicographic comparison of two sort keys, `false < true` on the first
component — exactly Python's tuple comparison for the keys of line 30. -/
def keyLEb (a b : Bool × List Char) : Bool :=
  (decide (a.1 < b.1)) || ((a.1 == b.1) && decide (a.2 ≤ b.2))

/-- `sort_children` (lines 28-31): the children of `parent`, sorted stably
by `childKey`. -/
def sortChildren (t : Node) (files : List (List String)) (parent : List String) : List String :=
  List.insertionSort (fun a b => keyLEb (childKey t parent a) (childKey t parent b) = true)
    (childrenOf files parent)

mutual
/-- Number of nodes of a filesystem tree (termination measure only). -/
def Node.size : Node → Nat
  | .file _ => 1
  | .dir es => 1 + entriesSize es

/-- Total size of a directory's entries (see `Node.size`). -/
def entriesSize : List (String × Node) → Nat
  | [] => 0
  | e :: rest => e.2.size + entriesSize rest
end

/-- Size of the node reached by `p`, or `0` when `p` names nothing: the
termination measure of the tree renderer. -/
def depthAt (t : Node) (p : List String) : Nat :=
  match lookupNode p t with
  | some m => m.size
  | none => 0

mutual
/-- `add_tree` (lines 36-45): renders the subtree rooted at `parent` with
indentation accumulator `pfx`, one output line per entry.  Each produced
line is annotated (first component) with the relative path of the entry it
displays; the document keeps only the second components. -/
def addTree (t : Node) (files : List (List String)) (parent : List String) (pfx : String) :
    List (List String × String) :=
  addTreeLoop t files parent pfx (sortChildren t files parent)
termination_by (depthAt t parent, 1, 0)

/-- The `for i, name in enumerate(entries)` loop body of `add_tree`
(lines 38-45): `is_last` holds iff no further sibling follows; connector and
continuation glyphs are the (mojibake) literals of the source. -/
def addTreeLoop (t : Node) (files : List (List String)) (parent : List String) (pfx : String) :
    List String → List (List String × String)
  | [] => []
  | nm :: rest =>
      (parent ++ [nm], pfx ++ (if rest.isEmpty then "â””â”€â”€ " else "â”œâ”€â”€ ") ++ nm) ::
      ((if h : isDir t (parent ++ [nm]) then
          addTree t files (parent ++ [nm]) (pfx ++ (if rest.isEmpty then "    " else "â”‚   "))
        else []) ++ addTreeLoop t files parent pfx rest)
termination_by es => (depthAt t parent, 0, es.length)
decreasing_by
  · have key : ∀ (p : List String) (s : String) (n : Node),
        isDir n (p ++ [s]) = true → depthAt n (p ++ [s]) < depthAt n p := by
      intro p
      induction p with
      | nil =>
          intro s n hd
          cases n with
          | file fd => simp [isDir, lookupNode] at hd
          | dir es =>
              simp only [isDir, List.nil_append, lookupNode] at hd
              cases hfind : es.find? (fun e => e.1 == s) with
              | none => rw [hfind] at hd; simp at hd
              | some e =>
                  have hmem : e ∈ es := List.mem_of_find?_eq_some hfind
                  have h1 : e.2.size < 1 + entriesSize es := by
                    clear hd hfind
                    induction es with
                    | nil => cases hmem
                    | cons a as ih =>
                        rcases List.mem_cons.mp hmem with hh | hh
                        · subst hh; simp only [entriesSize]; omega
                        · have := ih hh; simp only [entriesSize]; omega
                  simp only [depthAt, List.nil_append, lookupNode, hfind, Node.size]
                  exact h1
      | cons a p ih =>
          intro s n hd
          cases n with
          | file fd => simp [isDir, lookupNode] at hd
          | dir es =>
              simp only [isDir, List.cons_append, lookupNode] at hd
              cases hfind : es.find? (fun e => e.1 == a) with
              | none => rw [hfind] at hd; simp at hd
              | some e =>
                  rw [hfind] at hd
                  have := ih s e.2 (by simpa [isDir] using hd)
                  simpa only [depthAt, List.cons_append, lookupNode, hfind] using this
    exact Prod.Lex.left _ _ (key parent x t h)
  · exact Prod.Lex.right _ (Prod.Lex.right _ (by simp))
end

/-- Is `b` a UTF-8 continuation byte (`0x80-0xBF`)? -/
def isCont (b : Fin 256) : Bool := 0x80 ≤ b.val && b.val < 0xC0

/-- Strict UTF-8 decoding of a byte sequence, as performed by
`path.read_text(encoding='utf-8')` (line 51): `none` on the first invalid
sequence (stray continuation byte, overlong form, surrogate, out-of-range
lead or truncated sequence), mirroring CPython's strict `utf-8` codec. -/
def utf8Decode : List (Fin 256) → Option (List Char)
  | [] => some []
  | b :: rest =>
      if b.val < 0x80 then
        (utf8Decode rest).map (fun cs => Char.ofNat b.val :: cs)
      else if b.val < 0xC2 then none
      else if b.val < 0xE0 then
        match rest with
        | c1 :: rest' =>
            if isCont c1 then
              (utf8Decode rest').map
                (fun cs => Char.ofNat ((b.val - 0xC0) * 0x40 + (c1.val - 0x80)) :: cs)
            else none
        | [] => none
      else if b.val < 0xF0 then
        match rest with
        | c1 :: c2 :: rest' =>
            if (if b.val = 0xE0 then 0xA0 ≤ c1.val && c1.val < 0xC0
                else if b.val = 0xED then 0x80 ≤ c1.val && c1.val < 0xA0
                else isCont c1) && isCont c2 then
              (utf8Decode rest').map
                (fun cs => Char.ofNat ((b.val - 0xE0) * 0x1000 +
                  (c1.val - 0x80) * 0x40 + (c2.val - 0x80)) :: cs)
            else none
        | _ => none
      else if b.val < 0xF5 then
        match rest with
        | c1 :: c2 :: c3 :: rest' =>
            if (if b.val = 0xF0 then 0x90 ≤ c1.val && c1.val < 0xC0
                else if b.val = 0xF4 then 0x80 ≤ c1.val && c1.val < 0x90
                else isCont c1) && isCont c2 && isCont c3 then
              (utf8Decode rest').map
                (fun cs => Char.ofNat ((b.val - 0xF0) * 0x40000 +
                  (c1.val - 0x80) * 0x1000 + (c2.val - 0x80) * 0x40 + (c3.val - 0x80)) :: cs)
            else none
        | _ => none
      else none

/-- The `latin-1` fallback decoding (line 54): each byte becomes the
character with the same code point.  Total on every byte sequence. -/
def latin1Decode (bs : List (Fin 256)) : List Char :=
  bs.map (fun b => Char.ofNat b.val)

/-- Universal-newline translation performed by `Path.read_text` (text mode,
`newline=None`): `"\r\n"` and a lone `"\r"` both become `"\n"`. -/
def translateNewlines : List Char → List Char
  | [] => []
  | '\r' :: '\n' :: rest => '\n' :: translateNewlines rest
  | '\r' :: rest => '\n' :: translateNewlines rest
  | c :: rest => c :: translateNewlines rest

/-- `read_text_safely` (lines 49-54): primary UTF-8 decoding, retried with
`latin-1` on a `UnicodeDecodeError`; an `OSError`-style read failure
propagates to the caller (as `Except.error`). -/
def read_text_safely : FileData → Except String String
  | .bytes bs =>
      match utf8Decode bs with
      | some cs => .ok ⟨translateNewlines cs⟩
      | none => .ok ⟨translateNewlines (latin1Decode bs)⟩
  | .readError msg => .error msg

/-- `rel.as_posix()` (line 65): the relative path joined with forward
slashes, and also the string used (under the fixed root prefix) by the
`sorted(files)` path comparison. -/
def joinPath : List String → String
  | [] => ""
  | [s] => s
  | s :: rest => s ++ "/" ++ joinPath rest

/-- Reading the file at relative path `q` of tree `t` inside the dump loop:
looking up the node, then `read_text_safely`.  A missing path or a
directory raises the corresponding `OSError` (carried as `Except.error`
with Python's message text). -/
def readAt (t : Node) (q : List String) : Except String String :=
  match lookupNode q t with
  | some (.file fd) => read_text_safely fd
  | some (.dir _) => .error ("[Errno 21] Is a directory: " ++ joinPath q)
  | none => .error ("[Errno 2] No such file or directory: " ++ joinPath q)

/-- `content.endswith('\n')` of line 71, at the code-point level. -/
def endsWithLF (s : String) : Bool := s.data.getLast? == some '\n'

/-- The delimiter line of a file section (line 65). -/
def delimLine (q : List String) : String := "--- FILE: " ++ joinPath q ++ " ---\n"

/-- The content written for a file: its decoded text, or the per-file error
placeholder `[Error reading file: ...]` of lines 66-69. -/
def sectionContent (t : Node) (q : List String) : String :=
  match readAt t q with
  | .ok c => c
  | .error e => "[Error reading file: " ++ e ++ "]"

/-- One file section of the output document (lines 64-73): delimiter line,
content, a newline appended when the content does not end with one, and the
blank-line separator. -/
def fileSection (t : Node) (q : List String) : String :=
  delimLine q ++ sectionContent t q ++
    (if endsWithLF (sectionContent t q) then "" else "\n") ++ "\n"

/-- A realisable relative path: nonempty, with nonempty segments that
contain no `/` (no real path segment contains the separator). -/
def pathOk (p : List String) : Bool :=
  !p.isEmpty && p.all (fun s => !s.data.isEmpty && !s.data.contains '/')

/-- `sorted(files)` (line 63): Python sorts `Path` objects by their path
string; under the fixed absolute root prefix this is code-point comparison
of the joined relative paths. -/
def pySort (files : List (List String)) : List (List String) :=
  List.insertionSort (fun p q => (joinPath p).data ≤ (joinPath q).data) files

/-- The file sections of the dump loop, in sorted order, each annotated with
the relative path it is for. -/
def sectionsOf (tRead : Node) (files : List (List String)) : List (List String × String) :=
  (pySort files).map (fun q => (q, fileSection tRead q))

/-- The file-contents portion of the output document: the concatenation of
all file sections in sorted order. -/
def contentsOf (tRead : Node) (files : List (List String)) : String :=
  String.join ((sectionsOf tRead files).map Prod.snd)

/-- Effect of `output.open('w')` (line 56) on one root entry: the entry
named `_repo_export.txt`, when it is a regular file, loses its content. -/
def truncateEntry (e : String × Node) : String × Node :=
  if e.1 = outputName then
    match e.2 with
    | .file _ => (e.1, Node.file (.bytes []))
    | .dir d => (e.1, Node.dir d)
  else e

/-- Effect of `output.open('w')` (line 56) on the tree before the dump loop
runs: the output file directly under the root, if present as a regular
file, is truncated to zero bytes. -/
def truncateOutput : Node → Node
  | .file fd => .file fd
  | .dir es => .dir (es.map truncateEntry)

/-- `FileList` of a run: the collector's result over the snapshot tree. -/
def runFiles (rootParts : List String) (t : Node) : List (List String) :=
  Node.walk rootParts [] t

/-- The file sections produced by a run: collection happens on the snapshot
tree `t`, but reading happens after the output file has been opened for
writing and truncated. -/
def runSections (rootParts : List String) (t : Node) : List (List String × String) :=
  sectionsOf (truncateOutput t) (runFiles rootParts t)

/-- The annotated tree lines of a run (`add_tree(())`, line 47). -/
def runTreeLines (rootParts : List String) (t : Node) : List (List String × String) :=
  addTree t (runFiles rootParts t) [] ""

/-- The whole output document of a run (lines 56-73): tree header, the root
path line, the tree, a blank line, the contents header, and every file
section.  `rootStr` is `str(root)`. -/
def outputDocument (rootStr : String) (rootParts : List String) (t : Node) : String :=
  "REPO TREE\n" ++ "========\n" ++
    String.intercalate "\n" (rootStr :: (runTreeLines rootParts t).map Prod.snd) ++
    "\n\n" ++
    "FILE CONTENTS (latest)\n" ++ "======================\n\n" ++
    String.join ((runSections rootParts t).map Prod.snd)

/-! ### Helper lemmas -/

theorem nodupNames_iff (l : List String) : nodupNames l = true ↔ l.Nodup := by
  induction l with
  | nil => simp [nodupNames]
  | cons x xs ih =>
      simp [nodupNames, ih]

mutual
theorem walk_shape (rootParts cur : List String) (n : Node) :
    ∀ q ∈ Node.walk rootParts cur n,
      ∃ rest, q = cur ++ rest ∧ rest ≠ [] ∧ ∀ s ∈ rest, s ∉ excludeDirs := by
  match n with
  | .file _ => intro q hq; simp [Node.walk] at hq
  | .dir es =>
    intro q hq
    simp only [Node.walk, List.mem_append, List.mem_filterMap] at hq
    rcases hq with ⟨e, he, hsome⟩ | hq
    · match e with
      | (nm, .file fd) =>
        simp only at hsome
        split at hsome
        · exact absurd hsome (by simp)
        · rename_i hnot
          refine ⟨[nm], by simpa using hsome.symm, by simp, ?_⟩
          intro s hs hmem
          apply hnot
          simp only [List.mem_singleton] at hs
          subst hs
          simp only [List.any_eq_true, decide_eq_true_eq]
          exact ⟨s, by simp, hmem⟩
      | (nm, .dir _) => simp at hsome
    · exact walkSubdirs_shape rootParts cur es q hq

theorem walkSubdirs_shape (rootParts cur : List String) (es : List (String × Node)) :
    ∀ q ∈ walkSubdirs rootParts cur es,
      ∃ rest, q = cur ++ rest ∧ rest ≠ [] ∧ ∀ s ∈ rest, s ∉ excludeDirs := by
  match es with
  | [] => intro q hq; simp [walkSubdirs] at hq
  | (nm, t) :: rest =>
    intro q hq
    simp only [walkSubdirs, List.mem_append] at hq
    rcases hq with hq | hq
    · match t with
      | .file _ => simp at hq
      | .dir es' =>
        simp only at hq
        split at hq
        · simp at hq
        · rename_i hnm
          obtain ⟨r, hr, hne, hclean⟩ := walk_shape rootParts (cur ++ [nm]) (.dir es') q hq
          refine ⟨nm :: r, by simpa using hr, by simp, ?_⟩
          intro s hs
          rcases List.mem_cons.mp hs with h | h
          · subst h; exact hnm
          · exact hclean s h
    · exact walkSubdirs_shape rootParts cur rest q hq
end

theorem lookupFile_eq_some {n : Node} {p : List String} {fd : FileData} :
    lookupFile n p = some fd ↔ lookupNode p n = some (.file fd) := by
  unfold lookupFile
  cases h : lookupNode p n with
  | none => simp
  | some m => cases m <;> simp

theorem find?_of_mem_nodup {es : List (String × Node)} {nm : String} {x : Node}
    (hnd : (es.map Prod.fst).Nodup) (hmem : (nm, x) ∈ es) :
    es.find? (fun e => e.1 == nm) = some (nm, x) := by
  induction es with
  | nil => cases hmem
  | cons e rest ih =>
      rcases List.mem_cons.mp hmem with he | he
      · subst he; simp [List.find?]
      · have hne : e.1 ≠ nm := by
          intro hcontra
          have : nm ∈ rest.map Prod.fst := List.mem_map.mpr ⟨(nm, x), he, rfl⟩
          rw [List.map_cons] at hnd
          exact (List.nodup_cons.mp hnd).1 (hcontra ▸ this)
        rw [List.find?_cons_of_neg _ (by simp [hne])]
        exact ih (by rw [List.map_cons] at hnd; exact (List.nodup_cons.mp hnd).2) he

theorem mem_names_of_find? {es : List (String × Node)} {nm : String} {e : String × Node}
    (h : es.find? (fun x => x.1 == nm) = some e) : e.1 = nm ∧ e ∈ es := by
  have h1 := List.find?_some h
  have h2 := List.mem_of_find?_eq_some h
  exact ⟨by simpa using h1, h2⟩

mutual
theorem walk_mem_iff (rootParts cur q : List String) (n : Node) (hwf : n.wf = true) :
    q ∈ Node.walk rootParts cur n ↔
      ∃ rest, q = cur ++ rest ∧ rest ≠ [] ∧ (∃ fd, lookupNode rest n = some (.file fd)) ∧
        ∀ s ∈ rootParts ++ cur ++ rest, s ∉ excludeDirs := by
  match n with
  | .file fd0 =>
      simp only [Node.walk, List.not_mem_nil, false_iff]
      rintro ⟨rest, hq, hne, ⟨fd, hlk⟩, hclean⟩
      cases rest with
      | nil => exact hne rfl
      | cons a r => simp [lookupNode] at hlk
  | .dir es =>
      have hparts : nodupNames (es.map Prod.fst) = true ∧ entriesWf es = true := by
        simpa [Node.wf, Bool.and_eq_true] using hwf
      constructor
      · intro hq
        simp only [Node.walk, List.mem_append, List.mem_filterMap] at hq
        rcases hq with ⟨e, he, hsome⟩ | hq
        · match e, he, hsome with
          | (nm, .file fd), he, hsome =>
              simp only at hsome
              split at hsome
              · exact absurd hsome (by simp)
              · rename_i hnot
                refine ⟨[nm], by simpa using hsome.symm, by simp, ⟨fd, ?_⟩, ?_⟩
                · have hfind := find?_of_mem_nodup ((nodupNames_iff _).mp hparts.1) he
                  simp [lookupNode, hfind]
                · intro s hs hmem
                  apply hnot
                  simp only [List.any_eq_true, decide_eq_true_eq]
                  exact ⟨s, hs, hmem⟩
          | (nm, .dir _), he, hsome => simp at hsome
        · obtain ⟨nm, rest, hq, hne, hfd, hclean⟩ :=
            (walkSubdirs_mem_iff rootParts cur q es hparts.2 hparts.1).mp hq
          exact ⟨nm :: rest, hq, by simp, hfd, hclean⟩
      · rintro ⟨rest, hq, hne, ⟨fd, hlk⟩, hclean⟩
        cases rest with
        | nil => exact absurd rfl hne
        | cons nm rest' =>
            cases rest' with
            | nil =>
                simp only [lookupNode] at hlk
                cases hfind : es.find? (fun e => e.1 == nm) with
                | none => rw [hfind] at hlk; simp at hlk
                | some e =>
                    rw [hfind] at hlk
                    simp only [lookupNode] at hlk
                    obtain ⟨hnm, hmem⟩ := mem_names_of_find? hfind
                    apply List.mem_append.mpr; left
                    apply List.mem_filterMap.mpr
                    refine ⟨e, hmem, ?_⟩
                    have he2 : e.2 = Node.file fd := by simpa using hlk
                    obtain ⟨e1, e2⟩ := e
                    simp only at he2 hnm
                    subst he2; subst hnm
                    simp only
                    have hfalse :
                        ((rootParts ++ cur ++ [e1]).any fun s => decide (s ∈ excludeDirs)) = false := by
                      apply List.any_eq_false.mpr
                      intro x hx
                      simpa using hclean x hx
                    rw [hfalse]
                    simpa using hq.symm
            | cons s2 rest'' =>
                apply List.mem_append.mpr; right
                apply (walkSubdirs_mem_iff rootParts cur q es hparts.2 hparts.1).mpr
                exact ⟨nm, s2 :: rest'', hq, by simp, ⟨fd, hlk⟩, hclean⟩

theorem walkSubdirs_mem_iff (rootParts cur q : List String) (es : List (String × Node))
    (hew : entriesWf es = true) (hnd : nodupNames (es.map Prod.fst) = true) :
    q ∈ walkSubdirs rootParts cur es ↔
      ∃ nm rest, q = cur ++ nm :: rest ∧ rest ≠ [] ∧
        (∃ fd, lookupNode (nm :: rest) (Node.dir es) = some (.file fd)) ∧
        ∀ s ∈ rootParts ++ cur ++ nm :: rest, s ∉ excludeDirs := by
  match es with
  | [] =>
      simp only [walkSubdirs, List.not_mem_nil, false_iff]
      rintro ⟨nm, rest, hq, hne, ⟨fd, hlk⟩, hclean⟩
      simp [lookupNode, List.find?] at hlk
  | (nm0, t0) :: es' =>
      have hw0 : t0.wf = true ∧ entriesWf es' = true := by
        simpa [entriesWf, Bool.and_eq_true] using hew
      have hn0 : nm0 ∉ es'.map Prod.fst ∧ nodupNames (es'.map Prod.fst) = true := by
        simpa [nodupNames, Bool.and_eq_true] using hnd
      constructor
      · intro hq
        simp only [walkSubdirs, List.mem_append] at hq
        rcases hq with hq | hq
        · cases t0 with
          | file fd2 => simp at hq
          | dir es0 =>
              simp only at hq
              split at hq
              · simp at hq
              · rename_i hexcl
                obtain ⟨rest0, hq0, hne0, hfd0, hclean0⟩ :=
                  (walk_mem_iff rootParts (cur ++ [nm0]) q (.dir es0) hw0.1).mp hq
                refine ⟨nm0, rest0, by simpa [List.append_assoc] using hq0, hne0, ?_, ?_⟩
                · obtain ⟨fd, hf⟩ := hfd0
                  refine ⟨fd, ?_⟩
                  simp only [lookupNode]
                  rw [List.find?_cons_of_pos _ (by simp)]
                  exact hf
                · intro s hs
                  apply hclean0
                  simp only [List.mem_append, List.mem_cons] at hs ⊢
                  tauto
        · obtain ⟨nm, rest, hq, hne, ⟨fd, hlk⟩, hclean⟩ :=
            (walkSubdirs_mem_iff rootParts cur q es' hw0.2 hn0.2).mp hq
          refine ⟨nm, rest, hq, hne, ⟨fd, ?_⟩, hclean⟩
          have hmemnames : nm ∈ es'.map Prod.fst := by
            simp only [lookupNode] at hlk
            cases hfind : es'.find? (fun e => e.1 == nm) with
            | none => rw [hfind] at hlk; simp at hlk
            | some e =>
                have hme := mem_names_of_find? hfind
                exact hme.1 ▸ List.mem_map.mpr ⟨e, hme.2, rfl⟩
          have hne0 : nm0 ≠ nm := fun hcontra => hn0.1 (hcontra ▸ hmemnames)
          simp only [lookupNode] at hlk ⊢
          rw [List.find?_cons_of_neg _ (by simp [hne0])]
          exact hlk
      · rintro ⟨nm, rest, hq, hne, ⟨fd, hlk⟩, hclean⟩
        simp only [walkSubdirs, List.mem_append]
        by_cases hb : nm0 = nm
        · subst hb
          simp only [lookupNode] at hlk
          rw [List.find?_cons_of_pos _ (by simp)] at hlk
          left
          cases t0 with
          | file fd2 =>
              cases rest with
              | nil => exact absurd rfl hne
              | cons a r => simp [lookupNode] at hlk
          | dir es0 =>
              simp only
              rw [if_neg (hclean nm0 (by simp))]
              apply (walk_mem_iff rootParts (cur ++ [nm0]) q (.dir es0) hw0.1).mpr
              refine ⟨rest, by simpa [List.append_assoc] using hq, hne, ⟨fd, hlk⟩, ?_⟩
              intro s hs
              apply hclean
              simp only [List.mem_append, List.mem_cons] at hs ⊢
              tauto
        · right
          apply (walkSubdirs_mem_iff rootParts cur q es' hw0.2 hn0.2).mpr
          refine ⟨nm, rest, hq, hne, ⟨fd, ?_⟩, hclean⟩
          simp only [lookupNode] at hlk ⊢
          rw [List.find?_cons_of_neg _ (by simp [hb])] at hlk
          exact hlk
end

theorem walkSubdirs_mem_head (rootParts cur : List String) (es : List (String × Node)) :
    ∀ q ∈ walkSubdirs rootParts cur es,
      ∃ nm rest, q = cur ++ nm :: rest ∧ rest ≠ [] ∧ nm ∈ es.map Prod.fst := by
  induction es with
  | nil => intro q hq; simp [walkSubdirs] at hq
  | cons e es' ih =>
      obtain ⟨nm0, t0⟩ := e
      intro q hq
      simp only [walkSubdirs, List.mem_append] at hq
      rcases hq with hq | hq
      · cases t0 with
        | file fd => simp at hq
        | dir es0 =>
            simp only at hq
            split at hq
            · simp at hq
            · obtain ⟨r, hr, hne, _⟩ := walk_shape rootParts (cur ++ [nm0]) (.dir es0) q hq
              exact ⟨nm0, r, by simpa [List.append_assoc] using hr, hne, by simp⟩
      · obtain ⟨nm, rest, hq, hne, hmem⟩ := ih q hq
        exact ⟨nm, rest, hq, hne, by simp [hmem]⟩

mutual
theorem walk_nodup (rootParts cur : List String) (n : Node) (hwf : n.wf = true) :
    (Node.walk rootParts cur n).Nodup := by
  match n with
  | .file _ => simp [Node.walk]
  | .dir es =>
      have hparts : nodupNames (es.map Prod.fst) = true ∧ entriesWf es = true := by
        simpa [Node.wf, Bool.and_eq_true] using hwf
      have hnd := (nodupNames_iff _).mp hparts.1
      rw [Node.walk, List.nodup_append]
      refine ⟨?_, walkSubdirs_nodup rootParts cur es hparts.2 hparts.1, ?_⟩
      · -- the files of the current directory, distinct names
        clear hwf hparts
        induction es with
        | nil => simp
        | cons e es' ih =>
            rw [List.map_cons, List.nodup_cons] at hnd
            rw [List.filterMap_cons]
            cases hfe : (match e.2 with
              | Node.file _ =>
                  if (rootParts ++ cur ++ [e.1]).any (fun s => decide (s ∈ excludeDirs)) then none
                  else some (cur ++ [e.1])
              | Node.dir _ => none) with
            | none => exact ih hnd.2
            | some v =>
                rw [List.nodup_cons]
                refine ⟨?_, ih hnd.2⟩
                intro hv
                obtain ⟨e', he', hfe'⟩ := List.mem_filterMap.mp hv
                have hv1 : v = cur ++ [e.1] := by
                  cases he2 : e.2 <;> rw [he2] at hfe <;> simp at hfe
                  exact hfe.2.symm
                have hv2 : v = cur ++ [e'.1] := by
                  cases he2 : e'.2 <;> rw [he2] at hfe' <;> simp at hfe'
                  exact hfe'.2.symm
                have : e.1 = e'.1 := by
                  have := hv1.symm.trans hv2
                  simpa using this
                exact hnd.1 (this ▸ List.mem_map.mpr ⟨e', he', rfl⟩)
      · -- the current directory's files are disjoint from the subdirectory walks
        intro q hq hq2
        obtain ⟨e, he, hfe⟩ := List.mem_filterMap.mp hq
        have hv1 : q = cur ++ [e.1] := by
          cases he2 : e.2 <;> rw [he2] at hfe <;> simp at hfe
          exact hfe.2.symm
        obtain ⟨nm, rest, hq2, hne, _⟩ := walkSubdirs_mem_head rootParts cur es q hq2
        rw [hv1] at hq2
        have hc : [e.1] = nm :: rest := List.append_cancel_left hq2
        injection hc with hh1 hh2
        exact hne hh2.symm

theorem walkSubdirs_nodup (rootParts cur : List String) (es : List (String × Node))
    (hew : entriesWf es = true) (hnd : nodupNames (es.map Prod.fst) = true) :
    (walkSubdirs rootParts cur es).Nodup := by
  match es with
  | [] => simp [walkSubdirs]
  | (nm0, t0) :: es' =>
      have hw0 : t0.wf = true ∧ entriesWf es' = true := by
        simpa [entriesWf, Bool.and_eq_true] using hew
      have hn0 : nm0 ∉ es'.map Prod.fst ∧ nodupNames (es'.map Prod.fst) = true := by
        simpa [nodupNames, Bool.and_eq_true] using hnd
      simp only [walkSubdirs]
      rw [List.nodup_append]
      refine ⟨?_, walkSubdirs_nodup rootParts cur es' hw0.2 hn0.2, ?_⟩
      · cases t0 with
        | file fd => simp
        | dir es0 =>
            simp only
            split
            · simp
            · exact walk_nodup rootParts (cur ++ [nm0]) (.dir es0) hw0.1
      · intro q hq hq2
        have hq1 : ∃ r, q = (cur ++ [nm0]) ++ r := by
          cases t0 with
          | file fd => simp at hq
          | dir es0 =>
              simp only at hq
              split at hq
              · simp at hq
              · obtain ⟨r, hr, _, _⟩ := walk_shape rootParts (cur ++ [nm0]) (.dir es0) q hq
                exact ⟨r, hr⟩
        obtain ⟨r, hr⟩ := hq1
        obtain ⟨nm, rest, hq2, hne2, hmem2⟩ := walkSubdirs_mem_head rootParts cur es' q hq2
        rw [hr] at hq2
        have hnm : nm0 = nm := by
          have h := hq2
          rw [List.append_assoc] at h
          have hc := List.append_cancel_left h
          injection hc
        exact hn0.1 (hnm ▸ hmem2)
end

theorem segPairs_decomp {q : List String} {pc : List String × String} (h : pc ∈ segPairs q) :
    ∃ suf, q = pc.1 ++ pc.2 :: suf := by
  induction q generalizing pc with
  | nil => cases h
  | cons s rest ih =>
      simp only [segPairs, List.mem_cons, List.mem_map] at h
      rcases h with h | ⟨pc', hpc', hmap⟩
      · exact ⟨rest, by simp [h]⟩
      · obtain ⟨suf, hsuf⟩ := ih hpc'
        subst hmap
        exact ⟨suf, by simp [hsuf]⟩

theorem segPairs_self_mem (s : String) (rest : List String) :
    ([], s) ∈ segPairs (s :: rest) := by
  simp [segPairs]

theorem dedupFirst_mem (x : String) :
    ∀ (l seen : List String), x ∈ dedupFirst seen l ↔ x ∈ l ∧ x ∉ seen := by
  intro l
  induction l with
  | nil => intro seen; simp [dedupFirst]
  | cons y ys ih =>
      intro seen
      by_cases hy : y ∈ seen
      · rw [dedupFirst, if_pos (by simpa using hy), ih]
        constructor
        · rintro ⟨h1, h2⟩; exact ⟨List.mem_cons_of_mem _ h1, h2⟩
        · rintro ⟨h1, h2⟩
          rcases List.mem_cons.mp h1 with h | h
          · exact absurd (h ▸ hy) h2
          · exact ⟨h, h2⟩
      · rw [dedupFirst, if_neg (by simpa using hy)]
        constructor
        · intro h
          rcases List.mem_cons.mp h with h | h
          · subst h; exact ⟨by simp, hy⟩
          · have := (ih (y :: seen)).mp h
            exact ⟨List.mem_cons_of_mem _ this.1, fun hc => this.2 (List.mem_cons_of_mem _ hc)⟩
        · rintro ⟨h1, h2⟩
          rcases List.mem_cons.mp h1 with h | h
          · subst h; exact List.mem_cons_self _ _
          · by_cases hxy : x = y
            · subst hxy; exact List.mem_cons_self _ _
            · exact List.mem_cons_of_mem _ ((ih (y :: seen)).mpr
                ⟨h, by simp [hxy, h2]⟩)

theorem childrenOf_mem {files : List (List String)} {parent : List String} {c : String} :
    c ∈ childrenOf files parent ↔ ∃ q ∈ files, (parent, c) ∈ segPairs q := by
  unfold childrenOf
  rw [dedupFirst_mem]
  constructor
  · rintro ⟨hmem, -⟩
    obtain ⟨pc, hpc, hc⟩ := List.mem_map.mp hmem
    obtain ⟨hpc2, hp⟩ := List.mem_filter.mp hpc
    obtain ⟨q, hq, hq2⟩ := List.mem_flatMap.mp hpc2
    obtain ⟨pc1, pc2⟩ := pc
    have hp' : pc1 = parent := by simpa using hp
    subst hp'
    simp only at hc
    subst hc
    exact ⟨q, hq, hq2⟩
  · rintro ⟨q, hq, hpc⟩
    refine ⟨List.mem_map.mpr ⟨(parent, c),
      List.mem_filter.mpr ⟨List.mem_flatMap.mpr ⟨q, hq, hpc⟩, by simp⟩, rfl⟩, by simp⟩

theorem addTreeLoop_mem_line (t : Node) (files : List (List String)) (parent : List String)
    (pfx : String) (es : List String) :
    ∀ c ∈ es, ∃ l, (parent ++ [c], l) ∈ addTreeLoop t files parent pfx es := by
  induction es with
  | nil => intro c hc; cases hc
  | cons x xs ih =>
      intro c hc
      rcases List.mem_cons.mp hc with h | h
      · subst h
        refine ⟨pfx ++ (if xs.isEmpty then "â””â”€â”€ " else "â”œâ”€â”€ ") ++ c, ?_⟩
        simp [addTreeLoop]
      · obtain ⟨l, hl⟩ := ih c h
        refine ⟨l, ?_⟩
        simp only [addTreeLoop, List.mem_cons, List.mem_append]
        right; right
        exact hl

theorem addTree_mem_line (t : Node) (files : List (List String)) (parent : List String)
    (pfx : String) (c : String) (hc : c ∈ sortChildren t files parent) :
    ∃ l, (parent ++ [c], l) ∈ addTree t files parent pfx := by
  rw [addTree]
  exact addTreeLoop_mem_line t files parent pfx _ c hc

theorem childrenOf_clean {files : List (List String)} {parent : List String} {c : String}
    (hf : ∀ q ∈ files, ∀ s ∈ q, s ∉ excludeDirs)
    (hc : c ∈ childrenOf files parent) : c ∉ excludeDirs := by
  obtain ⟨q, hq, hpc⟩ := childrenOf_mem.mp hc
  obtain ⟨suf, hsuf⟩ := segPairs_decomp hpc
  exact hf q hq c (by rw [hsuf]; simp)

theorem sortChildren_perm (t : Node) (files : List (List String)) (parent : List String) :
    (sortChildren t files parent).Perm (childrenOf files parent) :=
  List.perm_insertionSort _ _

theorem addTree_paths_clean (t : Node) (files : List (List String))
    (hf : ∀ q ∈ files, ∀ s ∈ q, s ∉ excludeDirs) :
    ∀ parent pfx, (∀ s ∈ parent, s ∉ excludeDirs) →
      ∀ x ∈ addTree t files parent pfx, ∀ s ∈ x.1, s ∉ excludeDirs := by
  refine addTree.induct t files
    (fun parent pfx => (∀ s ∈ parent, s ∉ excludeDirs) →
        ∀ x ∈ addTree t files parent pfx, ∀ s ∈ x.1, s ∉ excludeDirs)
    (fun parent pfx es => (∀ s ∈ parent, s ∉ excludeDirs) →
        (∀ c ∈ es, c ∈ childrenOf files parent) →
        ∀ x ∈ addTreeLoop t files parent pfx es, ∀ s ∈ x.1, s ∉ excludeDirs)
    ?_ ?_ ?_
  · intro parent pfx h2 hp
    rw [addTree]
    apply h2 hp
    intro c hc
    exact (sortChildren_perm t files parent).subset hc
  · intro parent pfx hp hcs x hx
    simp [addTreeLoop] at hx
  · intro parent pfx c cs hdesc ih hp hcs x hx
    simp only [addTreeLoop, List.mem_cons, List.mem_append] at hx
    rcases hx with hx | hx | hx
    · subst hx
      intro s hs
      simp only [List.mem_append, List.mem_singleton] at hs
      rcases hs with hs | hs
      · exact hp s hs
      · rw [hs]
        exact childrenOf_clean hf (hcs c (List.mem_cons_self _ _))
    · by_cases hd : isDir t (parent ++ [c]) = true
      · rw [dif_pos hd] at hx
        refine hdesc hd ?_ x hx
        intro s hs
        simp only [List.mem_append, List.mem_singleton] at hs
        rcases hs with hs | hs
        · exact hp s hs
        · rw [hs]
          exact childrenOf_clean hf (hcs c (List.mem_cons_self _ _))
      · rw [dif_neg hd] at hx
        cases hx
    · exact ih hp (fun c' hc' => hcs c' (List.mem_cons_of_mem _ hc')) x hx

theorem append_sep_cancel : ∀ (a : List Char) (b u v : List Char), '/' ∉ a → '/' ∉ b →
    a ++ '/' :: u = b ++ '/' :: v → a = b ∧ u = v := by
  intro a
  induction a with
  | nil =>
      intro b u v _ hb h
      cases b with
      | nil => simpa using h
      | cons c bs =>
          injection h with h1 h2
          exact absurd (h1 ▸ List.mem_cons_self c bs) hb
  | cons c as ih =>
      intro b u v ha hb h
      cases b with
      | nil =>
          injection h with h1 h2
          exact absurd (h1.symm ▸ List.mem_cons_self c as) ha
      | cons d bs =>
          injection h with h1 h2
          have := ih bs u v (fun hm => ha (List.mem_cons_of_mem _ hm))
            (fun hm => hb (List.mem_cons_of_mem _ hm)) h2
          exact ⟨by rw [h1, this.1], this.2⟩

theorem joinPath_cons_data (s : String) (x : String) (xs : List String) :
    (joinPath (s :: x :: xs)).data = s.data ++ '/' :: (joinPath (x :: xs)).data := by
  have hsep : ("/" : String).data = ['/'] := rfl
  show (s ++ "/" ++ joinPath (x :: xs)).data = _
  simp [String.data_append, hsep]

theorem sep_mem_joinPath_data (s : String) (x : String) (xs : List String) :
    '/' ∈ (joinPath (s :: x :: xs)).data := by
  rw [joinPath_cons_data]
  simp

theorem joinPath_inj : ∀ (p q : List String), pathOk p = true → pathOk q = true →
    joinPath p = joinPath q → p = q := by
  intro p
  induction p with
  | nil => intro q hp _ _; simp [pathOk] at hp
  | cons s p' ih =>
      intro q hp hq hj
      cases q with
      | nil => simp [pathOk] at hq
      | cons t q' =>
          have hps : !s.data.isEmpty && !s.data.contains '/' := by
            have := hp
            simp only [pathOk, Bool.and_eq_true, List.all_eq_true] at this
            simpa using this.2 s (List.mem_cons_self _ _)
          have hqt : !t.data.isEmpty && !t.data.contains '/' := by
            have := hq
            simp only [pathOk, Bool.and_eq_true, List.all_eq_true] at this
            simpa using this.2 t (List.mem_cons_self _ _)
          have hsnot : '/' ∉ s.data := by
            have h2 := hps
            simp only [Bool.and_eq_true] at h2
            simpa using h2.2
          have htnot : '/' ∉ t.data := by
            have h2 := hqt
            simp only [Bool.and_eq_true] at h2
            simpa using h2.2
          cases p' with
          | nil =>
              cases q' with
              | nil =>
                  have : s = t := by simpa [joinPath] using hj
                  rw [this]
              | cons t2 q'' =>
                  exfalso
                  apply hsnot
                  have hd : (joinPath [s]).data = (joinPath (t :: t2 :: q'')).data :=
                    congrArg String.data hj
                  simp only [joinPath] at hd
                  rw [hd]
                  exact sep_mem_joinPath_data t t2 q''
          | cons s2 p'' =>
              cases q' with
              | nil =>
                  exfalso
                  apply htnot
                  have hd : (joinPath (s :: s2 :: p'')).data = (joinPath [t]).data :=
                    congrArg String.data hj
                  simp only [joinPath] at hd
                  rw [← hd]
                  exact sep_mem_joinPath_data s s2 p''
              | cons t2 q'' =>
                  have hd := congrArg String.data hj
                  rw [joinPath_cons_data, joinPath_cons_data] at hd
                  obtain ⟨h1, h2⟩ := append_sep_cancel _ _ _ _ hsnot htnot hd
                  have hst : s = t := by
                    cases s; cases t; exact congrArg String.mk h1
                  have hrest : s2 :: p'' = t2 :: q'' := by
                    apply ih
                    · simp only [pathOk, Bool.and_eq_true, List.all_eq_true] at hp ⊢
                      refine ⟨by simp, fun x hx => hp.2 x (List.mem_cons_of_mem _ hx)⟩
                    · simp only [pathOk, Bool.and_eq_true, List.all_eq_true] at hq ⊢
                      refine ⟨by simp, fun x hx => hq.2 x (List.mem_cons_of_mem _ hx)⟩
                    · exact String.ext h2
                  rw [hst, hrest]

theorem eq_of_perm_of_sorted_local {α : Type} {r : α → α → Prop} :
    ∀ {l₁ l₂ : List α}, l₁.Perm l₂ → l₁.Sorted r → l₂.Sorted r →
      (∀ a ∈ l₁, ∀ b ∈ l₁, r a b → r b a → a = b) → l₁ = l₂ := by
  intro l₁
  induction l₁ with
  | nil =>
      intro l₂ hp _ _ _
      exact (hp.symm.eq_nil).symm
  | cons a t ih =>
      intro l₂ hp hs₁ hs₂ hanti
      cases l₂ with
      | nil => exact absurd hp.eq_nil (by simp)
      | cons b u =>
          have hab : a = b := by
            by_contra hne
            have hamem : a ∈ b :: u := hp.subset (List.mem_cons_self _ _)
            have hbmem : b ∈ a :: t := hp.symm.subset (List.mem_cons_self _ _)
            have ha' : a ∈ u := by
              rcases List.mem_cons.mp hamem with h | h
              · exact absurd h hne
              · exact h
            have hb' : b ∈ t := by
              rcases List.mem_cons.mp hbmem with h | h
              · exact absurd h.symm hne
              · exact h
            have hrab : r a b := (List.sorted_cons.mp hs₁).1 b hb'
            have hrba : r b a := (List.sorted_cons.mp hs₂).1 a ha'
            exact hne (hanti a (List.mem_cons_self _ _) b (List.mem_cons_of_mem _ hb') hrab hrba)
          subst hab
          have ht : t.Perm u := List.Perm.cons_inv hp
          have := ih ht (List.sorted_cons.mp hs₁).2 (List.sorted_cons.mp hs₂).2
            (fun x hx y hy hxy hyx =>
              hanti x (List.mem_cons_of_mem _ hx) y (List.mem_cons_of_mem _ hy) hxy hyx)
          rw [this]

theorem keyLEb_total (a b : Bool × List Char) : keyLEb a b = true ∨ keyLEb b a = true := by
  unfold keyLEb
  rcases lt_trichotomy a.1 b.1 with h | h | h
  · left; simp [h]
  · rcases le_total a.2 b.2 with h2 | h2
    · left; simp [h, h2]
    · right; simp [h.symm, h2]
  · right; simp [h]

theorem keyLEb_trans {a b c : Bool × List Char}
    (h1 : keyLEb a b = true) (h2 : keyLEb b c = true) : keyLEb a c = true := by
  unfold keyLEb at h1 h2 ⊢
  simp only [Bool.or_eq_true, Bool.and_eq_true, decide_eq_true_eq, beq_iff_eq] at h1 h2 ⊢
  rcases h1 with h1 | ⟨h1e, h1le⟩
  · rcases h2 with h2 | ⟨h2e, h2le⟩
    · exact Or.inl (lt_trans h1 h2)
    · exact Or.inl (h2e ▸ h1)
  · rcases h2 with h2 | ⟨h2e, h2le⟩
    · exact Or.inl (h1e ▸ h2)
    · exact Or.inr ⟨h1e.trans h2e, le_trans h1le h2le⟩

theorem endsWithLF_append_lf (s : String) : endsWithLF (s ++ "\n") = true := by
  have hnl : ("\n" : String).data = ['\n'] := rfl
  simp [endsWithLF, String.data_append, hnl, List.getLast?_concat]

theorem endsWithLF_iff (s : String) : endsWithLF s = true ↔ s.data.getLast? = some '\n' := by
  simp [endsWithLF]

theorem sectionsOf_map_fst (tRead : Node) (files : List (List String)) :
    (sectionsOf tRead files).map Prod.fst = pySort files := by
  rw [sectionsOf, List.map_map]
  exact List.map_id _

theorem pySort_perm (files : List (List String)) : (pySort files).Perm files :=
  List.perm_insertionSort _ _

/-! ### Claim theorems -/

/-- Claim C9: every file section begins with a delimiter line of the exact
form `--- FILE: <relative/path> ---` (the path joined with forward slashes),
followed by the file's content (ending in a line break) and a trailing blank
line. -/
theorem file_section_format (t : Node) (q : List String) :
    ∃ body, fileSection t q = "--- FILE: " ++ joinPath q ++ " ---\n" ++ body ++ "\n"
      ∧ body.data.getLast? = some '\n' := by
  by_cases h : endsWithLF (sectionContent t q) = true
  · refine ⟨sectionContent t q, ?_, (endsWithLF_iff _).mp h⟩
    rw [fileSection, if_pos h, delimLine]
    apply String.ext
    simp [String.data_append]
  · refine ⟨sectionContent t q ++ "\n", ?_, (endsWithLF_iff _).mp (endsWithLF_append_lf _)⟩
    rw [fileSection, if_neg h, delimLine]
    apply String.ext
    simp [String.data_append]

/-- Claim C5: when the decoded content of a file does not end with a line
break, its section carries the content with exactly one appended line break
before the blank-line separator; when it does end with one, nothing is
appended. -/
theorem trailing_newline_normalization (t : Node) (q : List String) (c : String)
    (h : readAt t q = Except.ok c) :
    (endsWithLF c = false →
        fileSection t q = delimLine q ++ (c ++ "\n") ++ "\n" ∧
        (c ++ "\n").data.getLast? = some '\n' ∧
        ¬ (c ++ "\n").data.dropLast.getLast? = some '\n')
    ∧ (endsWithLF c = true → fileSection t q = delimLine q ++ c ++ "\n") := by
  have hsc : sectionContent t q = c := by rw [sectionContent, h]
  constructor
  · intro hno
    refine ⟨?_, (endsWithLF_iff _).mp (endsWithLF_append_lf c), ?_⟩
    · rw [fileSection, hsc, if_neg (by simp [hno])]
      apply String.ext
      simp [String.data_append]
    · have hd : (c ++ "\n").data.dropLast = c.data := by
        have hnl : ("\n" : String).data = ['\n'] := rfl
        simp [String.data_append, hnl]
      rw [hd]
      intro hcontra
      have := (endsWithLF_iff c).mpr hcontra
      rw [hno] at this
      cases this
  · intro hyes
    rw [fileSection, hsc, if_pos (by simp [hyes])]
    apply String.ext
    simp [String.data_append]

theorem trailing_newline_normalization_witness :
    readAt (Node.dir [("a.txt", Node.file (.bytes [104, 105]))]) ["a.txt"] = Except.ok "hi"
    ∧ ((endsWithLF "hi" = false →
        fileSection (Node.dir [("a.txt", Node.file (.bytes [104, 105]))]) ["a.txt"] =
          delimLine ["a.txt"] ++ ("hi" ++ "\n") ++ "\n" ∧
        (("hi" : String) ++ "\n").data.getLast? = some '\n' ∧
        ¬ (("hi" : String) ++ "\n").data.dropLast.getLast? = some '\n')
      ∧ (endsWithLF "hi" = true →
        fileSection (Node.dir [("a.txt", Node.file (.bytes [104, 105]))]) ["a.txt"] =
          delimLine ["a.txt"] ++ "hi" ++ "\n")) :=
  ⟨rfl, trailing_newline_normalization _ _ _ rfl⟩

/-- Claim C6: a file whose read raises an error other than a decoding
failure gets a single-line `[Error reading file: ...]` placeholder as its
section content, and the dump loop still emits one section per collected
file, so one failing file never aborts the export. -/
theorem read_error_isolation (t : Node) (q : List String) (msg : String)
    (hq : lookupFile t q = some (.readError msg))
    (hmsg : ('\n') ∉ msg.data) :
    fileSection t q = delimLine q ++ ("[Error reading file: " ++ msg ++ "]" ++ "\n") ++ "\n"
    ∧ ('\n') ∉ ("[Error reading file: " ++ msg ++ "]").data
    ∧ ∀ (t₀ : Node) (rp : List String),
        (runSections rp t₀).length = (runFiles rp t₀).length := by
  have hread : readAt t q = .error msg := by
    simp [readAt, lookupFile_eq_some.mp hq, read_text_safely]
  have hsc : sectionContent t q = "[Error reading file: " ++ msg ++ "]" := by
    rw [sectionContent, hread]
  have hnomem : ('\n') ∉ ("[Error reading file: " ++ msg ++ "]").data := by
    intro hmem
    have hpre : ('\n') ∉ ("[Error reading file: " : String).data := by decide
    have hrb : ('\n') ∉ ("]" : String).data := by decide
    simp only [String.data_append, List.mem_append] at hmem
    rcases hmem with (hmem | hmem) | hmem
    · exact hpre hmem
    · exact hmsg hmem
    · exact hrb hmem
  have hnoend : endsWithLF (sectionContent t q) = false := by
    rw [hsc]
    have hrb : ("]" : String).data = [']'] := rfl
    have hlast : (("[Error reading file: " ++ msg ++ "]") : String).data.getLast? = some ']' := by
      rw [String.data_append, String.data_append, hrb, List.getLast?_concat]
    rw [endsWithLF, hlast]
    rfl
  refine ⟨?_, hnomem, ?_⟩
  · rw [fileSection, hsc, if_neg (by rw [hsc] at hnoend; simp [hnoend])]
    apply String.ext
    simp [String.data_append]
  · intro t₀ rp
    rw [runSections, sectionsOf, List.length_map, runFiles]
    exact (pySort_perm _).length_eq

theorem read_error_isolation_witness :
    lookupFile (Node.dir [("bad.txt", Node.file (.readError "Permission denied"))]) ["bad.txt"]
        = some (.readError "Permission denied")
    ∧ ('\n') ∉ ("Permission denied" : String).data
    ∧ (fileSection (Node.dir [("bad.txt", Node.file (.readError "Permission denied"))]) ["bad.txt"]
        = delimLine ["bad.txt"] ++ ("[Error reading file: " ++ "Permission denied" ++ "]" ++ "\n") ++ "\n"
      ∧ ('\n') ∉ ("[Error reading file: " ++ "Permission denied" ++ "]" : String).data
      ∧ ∀ (t₀ : Node) (rp : List String),
          (runSections rp t₀).length = (runFiles rp t₀).length) :=
  ⟨rfl, by decide, read_error_isolation _ _ _ rfl (by decide)⟩

/-- Claim C7: bytes invalid under the primary UTF-8 decoding are decoded by
the `latin-1` fallback, which succeeds on every byte sequence (one character
per byte, and reading raw bytes can never produce an error); such a file's
section carries the fallback-decoded content, never an error placeholder. -/
theorem fallback_decoding (bs : List (Fin 256)) (hfail : utf8Decode bs = none) :
    read_text_safely (.bytes bs) = .ok ⟨translateNewlines (latin1Decode bs)⟩
    ∧ (latin1Decode bs).length = bs.length
    ∧ (∀ bs' : List (Fin 256), ∃ s, read_text_safely (.bytes bs') = .ok s)
    ∧ ∀ (t : Node) (q : List String), lookupFile t q = some (.bytes bs) →
        sectionContent t q = ⟨translateNewlines (latin1Decode bs)⟩ := by
  refine ⟨by simp [read_text_safely, hfail], by simp [latin1Decode], ?_, ?_⟩
  · intro bs'
    cases hu : utf8Decode bs' with
    | some cs => exact ⟨⟨translateNewlines cs⟩, by simp [read_text_safely, hu]⟩
    | none => exact ⟨⟨translateNewlines (latin1Decode bs')⟩, by simp [read_text_safely, hu]⟩
  · intro t q hl
    simp [sectionContent, readAt, lookupFile_eq_some.mp hl, read_text_safely, hfail]

theorem fallback_decoding_witness :
    utf8Decode [(255 : Fin 256)] = none
    ∧ (read_text_safely (.bytes [(255 : Fin 256)]) =
          .ok ⟨translateNewlines (latin1Decode [(255 : Fin 256)])⟩
      ∧ (latin1Decode [(255 : Fin 256)]).length = [(255 : Fin 256)].length
      ∧ (∀ bs' : List (Fin 256), ∃ s, read_text_safely (.bytes bs') = .ok s)
      ∧ ∀ (t : Node) (q : List String), lookupFile t q = some (.bytes [(255 : Fin 256)]) →
          sectionContent t q = ⟨translateNewlines (latin1Decode [(255 : Fin 256)])⟩) :=
  ⟨rfl, fallback_decoding _ rfl⟩

/-- Claim C1: a regular file lying under any directory named as an element
of `excludeDirs`, at any depth below the root, appears neither in the
collected file list, nor as an entry of the parent-to-children index, nor as
a file section or tree line of the output document. -/
theorem exclusion_invariant (rootParts : List String) (t : Node) (q : List String)
    (_hfile : ∃ fd, lookupFile t q = some fd)
    (hex : ∃ s ∈ q.dropLast, s ∈ excludeDirs) :
    q ∉ runFiles rootParts t
    ∧ (∀ parent c, c ∈ childrenOf (runFiles rootParts t) parent → parent ++ [c] ≠ q)
    ∧ (∀ x ∈ runSections rootParts t, x.1 ≠ q)
    ∧ (∀ x ∈ runTreeLines rootParts t, x.1 ≠ q) := by
  obtain ⟨sx, hsx, hsxex⟩ := hex
  have hqdirty : ¬ (∀ s ∈ q, s ∉ excludeDirs) := by
    intro hcl
    exact hcl sx (List.dropLast_subset _ hsx) hsxex
  have hfilesclean : ∀ p ∈ runFiles rootParts t, ∀ s ∈ p, s ∉ excludeDirs := by
    intro p hp
    obtain ⟨rest, hpr, _, hclean⟩ := walk_shape rootParts [] t p hp
    simpa [hpr] using hclean
  refine ⟨?_, ?_, ?_, ?_⟩
  · intro hmem
    exact hqdirty (hfilesclean q hmem)
  · intro parent c hc hq
    obtain ⟨f, hf, hpc⟩ := childrenOf_mem.mp hc
    obtain ⟨suf, hsuf⟩ := segPairs_decomp hpc
    apply hqdirty
    intro s hs
    apply hfilesclean f hf s
    rw [hsuf]
    rw [← hq] at hs
    simp only [List.mem_append, List.mem_singleton, List.mem_cons] at hs ⊢
    tauto
  · intro x hx hxq
    have h1 : x.1 ∈ (runSections rootParts t).map Prod.fst := List.mem_map.mpr ⟨x, hx, rfl⟩
    rw [runSections, sectionsOf_map_fst] at h1
    have h2 : x.1 ∈ runFiles rootParts t := (pySort_perm _).subset h1
    exact hqdirty (hxq ▸ hfilesclean _ h2)
  · intro x hx hxq
    have hclean := addTree_paths_clean t (runFiles rootParts t) hfilesclean [] ""
      (by simp) x hx
    exact hqdirty (hxq ▸ hclean)

theorem exclusion_invariant_witness :
    (∃ fd, lookupFile
        (Node.dir [("node_modules", Node.dir [("x.js", Node.file (.bytes []))])])
        ["node_modules", "x.js"] = some fd)
    ∧ (∃ s ∈ (["node_modules", "x.js"] : List String).dropLast, s ∈ excludeDirs)
    ∧ (["node_modules", "x.js"] ∉ runFiles []
          (Node.dir [("node_modules", Node.dir [("x.js", Node.file (.bytes []))])])
      ∧ (∀ parent c, c ∈ childrenOf (runFiles []
            (Node.dir [("node_modules", Node.dir [("x.js", Node.file (.bytes []))])])) parent →
            parent ++ [c] ≠ ["node_modules", "x.js"])
      ∧ (∀ x ∈ runSections []
            (Node.dir [("node_modules", Node.dir [("x.js", Node.file (.bytes []))])]),
            x.1 ≠ ["node_modules", "x.js"])
      ∧ (∀ x ∈ runTreeLines []
            (Node.dir [("node_modules", Node.dir [("x.js", Node.file (.bytes []))])]),
            x.1 ≠ ["node_modules", "x.js"])) :=
  ⟨⟨.bytes [], rfl⟩, by decide,
    exclusion_invariant [] _ ["node_modules", "x.js"] ⟨.bytes [], rfl⟩ (by decide)⟩

/-- Claim C2 (amended): a path is in the collected file list iff it names a
regular file and no segment of its full absolute path — the segments of the
root's own absolute path included — is an element of `excludeDirs`.  (The
claim's assertion that segments above the root have no effect is refuted by
`collector_membership_cex`.) -/
theorem collector_membership (rootParts : List String) (t : Node) (q : List String)
    (hwf : t.wf = true) :
    q ∈ runFiles rootParts t ↔
      (∃ fd, lookupFile t q = some fd) ∧ q ≠ [] ∧
        ∀ s ∈ rootParts ++ q, s ∉ excludeDirs := by
  rw [runFiles, walk_mem_iff rootParts [] q t hwf]
  constructor
  · rintro ⟨rest, hq, hne, ⟨fd, hlk⟩, hclean⟩
    simp only [List.nil_append] at hq
    subst hq
    exact ⟨⟨fd, lookupFile_eq_some.mpr hlk⟩, hne, by simpa using hclean⟩
  · rintro ⟨⟨fd, hlk⟩, hne, hclean⟩
    exact ⟨q, by simp, hne, ⟨fd, lookupFile_eq_some.mp hlk⟩, by simpa using hclean⟩

/-- Claim C2 counterexample: when the root's own absolute path contains an
excluded name (here a root lying under a directory called `dist`), a regular
file whose relative path has no excluded segment is nevertheless excluded
from the file list — contradicting the claim that segments of the absolute
path above Root have no effect on inclusion. -/
theorem collector_membership_cex :
    (∃ fd, lookupFile (Node.dir [("a.txt", Node.file (.bytes []))]) ["a.txt"] = some fd)
    ∧ (∀ s ∈ (["a.txt"] : List String), s ∉ excludeDirs)
    ∧ ["a.txt"] ∉ runFiles ["dist"] (Node.dir [("a.txt", Node.file (.bytes []))]) :=
  ⟨⟨.bytes [], rfl⟩, by decide, by decide⟩

theorem collector_membership_witness :
    (Node.dir [("a.txt", Node.file (.bytes [])),
        ("node_modules", Node.dir [("x.js", Node.file (.bytes []))])]).wf = true
    ∧ (["a.txt"] ∈ runFiles [] (Node.dir [("a.txt", Node.file (.bytes [])),
          ("node_modules", Node.dir [("x.js", Node.file (.bytes []))])]) ↔
        (∃ fd, lookupFile (Node.dir [("a.txt", Node.file (.bytes [])),
            ("node_modules", Node.dir [("x.js", Node.file (.bytes []))])]) ["a.txt"] = some fd)
        ∧ ["a.txt"] ≠ ([] : List String)
        ∧ ∀ s ∈ ([] : List String) ++ ["a.txt"], s ∉ excludeDirs) :=
  ⟨by decide, collector_membership [] _ ["a.txt"] (by decide)⟩

/-- Claim C3: for every non-excluded regular file under the root (root path
itself unexcluded, well-formed tree), the dump contains exactly one file
section for its relative path, and that section starts with the matching
delimiter line. -/
theorem dump_completeness (rootParts : List String) (t : Node) (q : List String)
    (hwf : t.wf = true) (hroot : ∀ s ∈ rootParts, s ∉ excludeDirs)
    (hne : q ≠ []) (hfile : ∃ fd, lookupFile t q = some fd)
    (hclean : ∀ s ∈ q, s ∉ excludeDirs) :
    ((runSections rootParts t).filter (fun x => x.1 == q)).length = 1
    ∧ ∀ x ∈ runSections rootParts t, x.1 = q → ∃ body, x.2 = delimLine q ++ body := by
  have hmem : q ∈ runFiles rootParts t := by
    rw [runFiles, walk_mem_iff rootParts [] q t hwf]
    obtain ⟨fd, hfd⟩ := hfile
    refine ⟨q, by simp, hne, ⟨fd, lookupFile_eq_some.mp hfd⟩, ?_⟩
    intro s hs
    simp only [List.append_nil] at hs
    rcases List.mem_append.mp hs with h2 | h2
    · exact hroot s h2
    · exact hclean s h2
  have hnd : (runFiles rootParts t).Nodup := walk_nodup rootParts [] t hwf
  constructor
  · rw [runSections, sectionsOf, List.filter_map, List.length_map]
    have hpred : ((fun x : List String × String => x.1 == q) ∘
        (fun p => (p, fileSection (truncateOutput t) p))) = (fun p => p == q) := rfl
    have key : ∀ (l : List (List String)), l.Nodup → q ∈ l →
        (l.filter (fun x => x == q)).length = 1 := by
      intro l hl hm
      induction l with
      | nil => cases hm
      | cons a as ih =>
          rw [List.nodup_cons] at hl
          by_cases haq : a = q
          · subst haq
            rw [List.filter_cons_of_pos (by simp)]
            have hnil : as.filter (fun x => x == a) = [] := by
              rw [List.filter_eq_nil_iff]
              intro b hb
              simp only [beq_iff_eq]
              intro hba
              exact hl.1 (hba ▸ hb)
            rw [hnil]
            rfl
          · rw [List.filter_cons_of_neg (by simp [haq])]
            apply ih hl.2
            rcases List.mem_cons.mp hm with h | h
            · exact absurd h.symm haq
            · exact h
    rw [hpred]
    rw [((pySort_perm (runFiles rootParts t)).filter (fun x => x == q)).length_eq]
    exact key _ hnd hmem
  · intro x hx hxq
    rw [runSections, sectionsOf] at hx
    obtain ⟨p, _hp, hgp⟩ := List.mem_map.mp hx
    refine ⟨sectionContent (truncateOutput t) q ++
      (if endsWithLF (sectionContent (truncateOutput t) q) then "" else "\n") ++ "\n", ?_⟩
    have hx2 : x.2 = fileSection (truncateOutput t) p := by rw [← hgp]
    have hpq : p = q := by rw [← hgp] at hxq; exact hxq
    subst hpq
    rw [hx2, fileSection]
    apply String.ext
    simp [String.data_append]

theorem dump_completeness_witness :
    (Node.dir [("a.txt", Node.file (.bytes [104])),
        ("sub", Node.dir [("b.txt", Node.file (.bytes []))])]).wf = true
    ∧ (∀ s ∈ ([] : List String), s ∉ excludeDirs)
    ∧ (["sub", "b.txt"] : List String) ≠ []
    ∧ (∃ fd, lookupFile (Node.dir [("a.txt", Node.file (.bytes [104])),
        ("sub", Node.dir [("b.txt", Node.file (.bytes []))])]) ["sub", "b.txt"] = some fd)
    ∧ (∀ s ∈ (["sub", "b.txt"] : List String), s ∉ excludeDirs)
    ∧ ((runSections [] (Node.dir [("a.txt", Node.file (.bytes [104])),
          ("sub", Node.dir [("b.txt", Node.file (.bytes []))])])).filter
            (fun x => x.1 == ["sub", "b.txt"])).length = 1 :=
  ⟨by decide, by decide, by decide, ⟨.bytes [], by decide⟩, by decide,
    (dump_completeness [] _ ["sub", "b.txt"] (by decide) (by decide) (by decide)
      ⟨.bytes [], by decide⟩ (by decide)).1⟩

/-- Claim C4: the file-contents section of the document is a deterministic
function of the set of collected files — re-ordering the discovered list
(any permutation) leaves the emitted, path-sorted section list, and hence
the concatenated output, byte-identical. -/
theorem dump_sort_determinism (tRead : Node) (l l' : List (List String))
    (hperm : l.Perm l') (hv : ∀ p ∈ l, pathOk p = true) :
    contentsOf tRead l = contentsOf tRead l'
    ∧ pySort l = pySort l'
    ∧ (pySort l).Sorted (fun p p' => (joinPath p).data ≤ (joinPath p').data) := by
  haveI hT : IsTotal (List String)
      (fun p p' => (joinPath p).data ≤ (joinPath p').data) := ⟨fun a b => le_total _ _⟩
  haveI hTr : IsTrans (List String)
      (fun p p' => (joinPath p).data ≤ (joinPath p').data) :=
    ⟨fun a b c h1 h2 => le_trans h1 h2⟩
  have hsorted : (pySort l).Sorted (fun p p' => (joinPath p).data ≤ (joinPath p').data) :=
    List.sorted_insertionSort _ _
  have hsorted' : (pySort l').Sorted (fun p p' => (joinPath p).data ≤ (joinPath p').data) :=
    List.sorted_insertionSort _ _
  have heq : pySort l = pySort l' := by
    apply eq_of_perm_of_sorted_local
      (((pySort_perm l).trans hperm).trans (pySort_perm l').symm) hsorted hsorted'
    intro a ha b hb hab hba
    have hj : joinPath a = joinPath b := String.ext (le_antisymm hab hba)
    exact joinPath_inj a b (hv a ((pySort_perm l).subset ha))
      (hv b ((pySort_perm l).subset hb)) hj
  exact ⟨by rw [contentsOf, contentsOf, sectionsOf, sectionsOf, heq], heq, hsorted⟩

theorem dump_sort_determinism_witness :
    ([["b.txt"], ["a.txt"]] : List (List String)).Perm [["a.txt"], ["b.txt"]]
    ∧ (∀ p ∈ ([["b.txt"], ["a.txt"]] : List (List String)), pathOk p = true)
    ∧ (contentsOf (Node.dir []) [["b.txt"], ["a.txt"]] =
          contentsOf (Node.dir []) [["a.txt"], ["b.txt"]]
      ∧ pySort [["b.txt"], ["a.txt"]] = pySort [["a.txt"], ["b.txt"]]
      ∧ (pySort [["b.txt"], ["a.txt"]]).Sorted
          (fun p p' => (joinPath p).data ≤ (joinPath p').data)) :=
  ⟨by decide, by decide, dump_sort_determinism (Node.dir []) _ _ (by decide) (by decide)⟩

/-- Claim C8: under every parent, the rendered children are a permutation of
the ChildIndex entry in which all directories precede all files and, within
the same kind, names are in case-insensitive ascending order; this ordering
governs only the tree display — the file-contents sections remain emitted in
ascending path order. -/
theorem tree_child_order (t : Node) (files : List (List String)) (parent : List String) :
    (sortChildren t files parent).Perm (childrenOf files parent)
    ∧ (sortChildren t files parent).Pairwise (fun a b =>
        (isDir t (parent ++ [b]) = true → isDir t (parent ++ [a]) = true)
        ∧ (isDir t (parent ++ [a]) = isDir t (parent ++ [b]) →
            a.data.map Char.toLower ≤ b.data.map Char.toLower))
    ∧ ∀ (rootParts : List String) (t₀ : Node),
        ((runSections rootParts t₀).map Prod.fst).Sorted
          (fun p p' => (joinPath p).data ≤ (joinPath p').data) := by
  refine ⟨sortChildren_perm t files parent, ?_, ?_⟩
  · haveI hT : IsTotal String
        (fun a b => keyLEb (childKey t parent a) (childKey t parent b) = true) :=
      ⟨fun a b => keyLEb_total _ _⟩
    haveI hTr : IsTrans String
        (fun a b => keyLEb (childKey t parent a) (childKey t parent b) = true) :=
      ⟨fun a b c h1 h2 => keyLEb_trans h1 h2⟩
    have hs : (sortChildren t files parent).Sorted
        (fun a b => keyLEb (childKey t parent a) (childKey t parent b) = true) :=
      List.sorted_insertionSort _ _
    refine hs.imp ?_
    intro a b hab
    constructor
    · intro hdb
      cases hda : isDir t (parent ++ [a]) with
      | true => rfl
      | false =>
          exfalso
          simp [keyLEb, childKey, hda, hdb] at hab
          exact absurd hab (by decide)
    · intro heq
      cases hda : isDir t (parent ++ [a]) with
      | true =>
          rw [hda] at heq
          simp [keyLEb, childKey, hda, ← heq] at hab
          exact hab
      | false =>
          rw [hda] at heq
          simp [keyLEb, childKey, hda, ← heq] at hab
          exact hab
  · intro rootParts t₀
    haveI hT : IsTotal (List String)
        (fun p p' => (joinPath p).data ≤ (joinPath p').data) := ⟨fun a b => le_total _ _⟩
    haveI hTr : IsTrans (List String)
        (fun p p' => (joinPath p).data ≤ (joinPath p').data) :=
      ⟨fun a b c h1 h2 => le_trans h1 h2⟩
    rw [runSections, sectionsOf_map_fst]
    exact List.sorted_insertionSort _ _

/-- Claim C10 counterexample: a leftover `_repo_export.txt` from a previous
run (content `old\n`) is collected, but its file section in the new export
holds the content found at read time — the output file was already opened
for writing and truncated — and not the previous content `old\n`, refuting
the claim that the previous contents are dumped. -/
theorem self_inclusion_cex :
    ["_repo_export.txt"] ∈ runFiles []
        (Node.dir [("_repo_export.txt", Node.file (.bytes [111, 108, 100, 10]))])
    ∧ read_text_safely (.bytes [111, 108, 100, 10]) = .ok "old\n"
    ∧ runSections [] (Node.dir [("_repo_export.txt", Node.file (.bytes [111, 108, 100, 10]))])
        = [(["_repo_export.txt"], "--- FILE: _repo_export.txt ---\n\n\n")]
    ∧ ∀ x ∈ runSections []
          (Node.dir [("_repo_export.txt", Node.file (.bytes [111, 108, 100, 10]))]),
        x.2 ≠ "--- FILE: _repo_export.txt ---\nold\n\n" :=
  ⟨by decide, rfl, by decide, by decide⟩

/-- Claim C10 (amended): a leftover output document directly under the root
is collected as an ordinary regular file — it appears in the file list, in
the ChildIndex (hence in the tree), and exactly one run section is emitted
for it — but the content of that section is the output file's content at
read time, after `open('w')` truncated it (empty under the fully-buffered
single write pass), not its previous contents. -/
theorem self_inclusion (rootParts : List String) (t : Node) (bs : List (Fin 256))
    (hwf : t.wf = true) (hroot : ∀ s ∈ rootParts, s ∉ excludeDirs)
    (hprev : lookupFile t [outputName] = some (.bytes bs)) :
    [outputName] ∈ runFiles rootParts t
    ∧ outputName ∈ childrenOf (runFiles rootParts t) []
    ∧ (∃ l, ([outputName], l) ∈ runTreeLines rootParts t)
    ∧ (∃ x ∈ runSections rootParts t, x.1 = [outputName])
    ∧ sectionContent (truncateOutput t) [outputName] = "" := by
  have hout : outputName ∉ excludeDirs := by decide
  have hmem : [outputName] ∈ runFiles rootParts t := by
    rw [runFiles, walk_mem_iff rootParts [] [outputName] t hwf]
    refine ⟨[outputName], by simp, by simp, ⟨.bytes bs, lookupFile_eq_some.mp hprev⟩, ?_⟩
    intro s hs
    simp only [List.append_nil] at hs
    rcases List.mem_append.mp hs with h2 | h2
    · exact hroot s h2
    · rw [List.mem_singleton.mp h2]
      exact hout
  have hchild : outputName ∈ childrenOf (runFiles rootParts t) [] :=
    childrenOf_mem.mpr ⟨[outputName], hmem, segPairs_self_mem outputName []⟩
  refine ⟨hmem, hchild, ?_, ?_, ?_⟩
  · have hcs : outputName ∈ sortChildren t (runFiles rootParts t) [] :=
      (sortChildren_perm t (runFiles rootParts t) []).mem_iff.mpr hchild
    obtain ⟨l, hl⟩ := addTree_mem_line t (runFiles rootParts t) [] "" outputName hcs
    exact ⟨l, by simpa [runTreeLines] using hl⟩
  · have : [outputName] ∈ (runSections rootParts t).map Prod.fst := by
      rw [runSections, sectionsOf_map_fst]
      exact (pySort_perm _).mem_iff.mpr hmem
    obtain ⟨x, hx, hx1⟩ := List.mem_map.mp this
    exact ⟨x, hx, hx1⟩
  · have htr : lookupFile (truncateOutput t) [outputName] = some (.bytes []) := by
      have hlk := lookupFile_eq_some.mp hprev
      cases t with
      | file fd => simp [lookupNode] at hlk
      | dir es =>
          simp only [lookupNode] at hlk
          cases hfind : es.find? (fun e => e.1 == outputName) with
          | none => rw [hfind] at hlk; simp at hlk
          | some e =>
              rw [hfind] at hlk
              simp only [lookupNode] at hlk
              have he2 : e.2 = Node.file (.bytes bs) := by simpa using hlk
              obtain ⟨hnm, _⟩ := mem_names_of_find? hfind
              apply lookupFile_eq_some.mpr
              have htre : truncateEntry e = (e.1, Node.file (.bytes [])) := by
                rw [truncateEntry, if_pos hnm, he2]
              have hpred : ((fun e : String × Node => e.1 == outputName) ∘ truncateEntry)
                  = (fun e : String × Node => e.1 == outputName) := by
                funext x
                simp only [Function.comp, truncateEntry]
                by_cases hx : x.1 = outputName
                · rw [if_pos hx]
                  cases x.2 <;> simp [hx]
                · rw [if_neg hx]
              have hfind2 : ((es.map truncateEntry).find? (fun e => e.1 == outputName))
                  = some (e.1, Node.file (.bytes [])) := by
                rw [List.find?_map, hpred, hfind]
                rw [Option.map_some', htre]
              simp only [truncateOutput, lookupNode, hfind2]
    have hread : read_text_safely (FileData.bytes []) = .ok "" := rfl
    simp [sectionContent, readAt, lookupFile_eq_some.mp htr, hread]

theorem self_inclusion_witness :
    (Node.dir [("_repo_export.txt", Node.file (.bytes [111, 108, 100, 10])),
        ("a.txt", Node.file (.bytes [104]))]).wf = true
    ∧ (∀ s ∈ ([] : List String), s ∉ excludeDirs)
    ∧ lookupFile (Node.dir [("_repo_export.txt", Node.file (.bytes [111, 108, 100, 10])),
        ("a.txt", Node.file (.bytes [104]))]) [outputName] = some (.bytes [111, 108, 100, 10])
    ∧ ([outputName] ∈ runFiles []
          (Node.dir [("_repo_export.txt", Node.file (.bytes [111, 108, 100, 10])),
            ("a.txt", Node.file (.bytes [104]))])
      ∧ outputName ∈ childrenOf (runFiles []
          (Node.dir [("_repo_export.txt", Node.file (.bytes [111, 108, 100, 10])),
            ("a.txt", Node.file (.bytes [104]))])) []
      ∧ (∃ l, ([outputName], l) ∈ runTreeLines []
          (Node.dir [("_repo_export.txt", Node.file (.bytes [111, 108, 100, 10])),
            ("a.txt", Node.file (.bytes [104]))]))
      ∧ (∃ x ∈ runSections []
          (Node.dir [("_repo_export.txt", Node.file (.bytes [111, 108, 100, 10])),
            ("a.txt", Node.file (.bytes [104]))]), x.1 = [outputName])
      ∧ sectionContent (truncateOutput
          (Node.dir [("_repo_export.txt", Node.file (.bytes [111, 108, 100, 10])),
            ("a.txt", Node.file (.bytes [104]))])) [outputName] = "") :=
  ⟨by decide, by decide, by decide,
    self_inclusion [] _ [111, 108, 100, 10] (by decide) (by decide) (by decide)⟩
